import Mathlib

/-!
# NativeTerminalCore: tokenizer, command registry and dispatch

A shallow embedding of `native_terminal_core_Version2.cpp` and of the two functions of
`jni_bridge_Version2.cpp` that create and destroy a session.

* A `std::string` is a list of `Char`, one element per C++ `char`.
* The operating system is an explicit `World` value: every system call the
  class issues is appended to a trace, and what `openpty`, `fork` and `read`
  deliver is part of the world.
* A member function that touches the operating system takes the world and
  returns the new one.  `read` on a pseudo-terminal blocks while a live shell
  has nothing to say, so the result of a call that reads is an `Option`:
  `none` stands for a call that never returns.
-/

namespace NativeTerminal

/-! ## Strings -/

/-- The type `std::string`: a sequence of `char`. -/
abbrev CString := List Char

/-- The character `"` (0x22). -/
def dquote : Char := Char.ofNat 34

/-- The apostrophe character (0x27). -/
def squote : Char := Char.ofNat 39

/-- The newline character (0x0A). -/
def newline : Char := Char.ofNat 10

/-- The terminating character of a C string (0x00). -/
def nul : Char := Char.ofNat 0

/-- The constructor `std::string(const char*)`: the characters before the first NUL. -/
def fromCStr (buffer : List Char) : CString :=
  buffer.takeWhile (fun c => c ≠ nul)

/-! ## Operating system -/

/-- A system call issued by the class, with the arguments that matter. -/
inductive SysCall where
  | openpty
  | fork
  | write (fd : Int) (buf : List Char)
  | read (fd : Int) (count : Nat)
  deriving DecidableEq, Repr

/-- What the far side of the pseudo-terminal does when a read finds nothing ready. -/
inductive ShellSide where
  /-- The shell runs: the read blocks. -/
  | alive
  /-- End of stream: the read returns 0. -/
  | closed
  /-- The read fails: it returns -1. -/
  | failed
  deriving DecidableEq, Repr

/-- The operating system as the class sees it. -/
structure World where
  /-- The system calls issued so far, oldest first. -/
  trace : List SysCall
  /-- The descriptors open in this process. -/
  openFds : List Int
  /-- The child processes spawned and not terminated. -/
  children : List Int
  /-- What the next `openpty` delivers: a master and a slave descriptor, or failure. -/
  ptySupply : Option (Int × Int)
  /-- What the next `fork` delivers: `some k` for a child of pid `k + 1`, or failure. -/
  forkSupply : Option Nat
  /-- The bytes the shell side has ready by the time of the next read. -/
  ready : List Char
  /-- The state of the shell side. -/
  side : ShellSide

/-- The call `openpty(&master, &slave, 0, 0, 0)`: 0 and the two descriptors, or -1. -/
def sys_openpty (w : World) : Int × Option (Int × Int) × World :=
  let w1 := { w with trace := w.trace ++ [SysCall.openpty] }
  match w.ptySupply with
  | some (m, s) => (0, some (m, s), { w1 with openFds := w1.openFds ++ [m, s] })
  | none => (-1, none, w1)

/-- The call `fork()` as the parent sees it: the pid of the new child, or -1. -/
def sys_fork (w : World) : Int × World :=
  let w1 := { w with trace := w.trace ++ [SysCall.fork] }
  match w.forkSupply with
  | some k => ((k : Int) + 1, { w1 with children := w1.children ++ [(k : Int) + 1] })
  | none => (-1, w1)

/-- The call `write(fd, buf, n)`, `buf` being the `n` bytes handed over. -/
def sys_write (w : World) (fd : Int) (buf : List Char) : World :=
  { w with trace := w.trace ++ [SysCall.write fd buf] }

/-- The call `read(fd, buffer, count)`, for `count > 0`: the return value and the
bytes stored at the start of the buffer, or `none` when the read blocks for ever. -/
def sys_read (w : World) (fd : Int) (count : Nat) : Option (Int × List Char) × World :=
  let w1 := { w with trace := w.trace ++ [SysCall.read fd count] }
  match w.side with
  | ShellSide.failed => (some (-1, []), w1)
  | ShellSide.closed =>
    if w.ready = [] then (some (0, []), w1)
    else (some (((w.ready.take count).length : Int), w.ready.take count),
          { w1 with ready := w.ready.drop count })
  | ShellSide.alive =>
    if w.ready = [] then (none, w1)
    else (some (((w.ready.take count).length : Int), w.ready.take count),
          { w1 with ready := w.ready.drop count })

/-- The bytes written to descriptor `fd` along a trace, in order. -/
def bytesWritten (fd : Int) : List SysCall → List Char
  | [] => []
  | SysCall.write fd1 buf :: rest =>
    if fd1 = fd then buf ++ bytesWritten fd rest else bytesWritten fd rest
  | _ :: rest => bytesWritten fd rest

/-- The reads issued along a trace: descriptor and requested size, in order. -/
def readsIssued : List SysCall → List (Int × Nat)
  | [] => []
  | SysCall.read fd count :: rest => (fd, count) :: readsIssued rest
  | _ :: rest => readsIssued rest

/-! ## The class -/

/-- A built-in handler: `std::function<std::string(std::vector<std::string>)>`. -/
abbrev Handler := List CString → CString

/-- The map `commands`: an `unordered_map` from name to handler, keys unique. -/
abbrev Registry := List (CString × Handler)

/-- The test `commands.find(cmd) != commands.end()` together with the entry found. -/
def Registry.find (m : Registry) (cmd : CString) : Option Handler :=
  List.lookup cmd m

/-- The assignment `commands[name] = handler`: replace the entry of `name`, or add one. -/
def Registry.assign (m : Registry) (name : CString) (handler : Handler) : Registry :=
  match m.find name with
  | some _ => m.map (fun e => if e.1 = name then (name, handler) else e)
  | none => m ++ [(name, handler)]

/-- The data members of `NativeTerminalCore`. -/
structure NativeTerminalCore where
  master_fd : Int
  slave_fd : Int
  child_pid : Int
  commands : Registry

/-- The object made by `new NativeTerminalCore()`: the class has no constructor, so
the three integers are indeterminate and the map is empty. -/
def NativeTerminalCore.fresh (master slave pid : Int) : NativeTerminalCore :=
  { master_fd := master, slave_fd := slave, child_pid := pid, commands := [] }

/-! ### The tokenizer -/

/-- The local variables of the loop of `tokenizeCommand`. -/
structure TokState where
  tokens : List CString
  token : CString
  inQuotes : Bool
  deriving DecidableEq, Repr

/-- One iteration of the loop `for (char c : command)`. -/
def tokStep (s : TokState) (c : Char) : TokState :=
  if c = dquote ∨ c = squote then
    { s with inQuotes := !s.inQuotes }
  else if c = ' ' ∧ s.inQuotes = false then
    if s.token ≠ [] then
      { s with tokens := s.tokens ++ [s.token], token := [] }
    else s
  else
    { s with token := s.token ++ [c] }

/-- The statements after the loop: push the pending token when it is not empty. -/
def tokFinish (s : TokState) : List CString :=
  if s.token ≠ [] then s.tokens ++ [s.token] else s.tokens

/-- The member function `tokenizeCommand`. -/
def tokenizeCommand (command : CString) : List CString :=
  tokFinish (command.foldl tokStep { tokens := [], token := [], inQuotes := false })

/-! ### The built-in handlers -/

/-- The member function `processOmniscientCommand`. The accesses `args[0]` and
`args[1]` are guarded by the tests on the size, as in the source. -/
def processOmniscientCommand (args : List CString) : CString :=
  if args = [] then "Usage: omni [fix|dev|sys] <target>".toList
  else
    let action := args.getD 0 []
    if action = "fix".toList ∧ args.length > 1 then
      if args.getD 1 [] = "403".toList then
        "GitHub 403 permissions resolved via native HTTP client".toList
      else if args.getD 1 [] = "deps".toList then
        "Package dependencies automatically resolved".toList
      else "Omniscient command executed successfully".toList
    else if action = "dev".toList then
      "Development environment configured".toList
    else if action = "sys".toList then
      "System diagnostics: All systems operational".toList
    else "Omniscient command executed successfully".toList

/-- The member function `executeGitHubFix`. -/
def executeGitHubFix (_args : List CString) : CString :=
  "GitHub integration active - repository access enabled".toList

/-- The member function `setupDevelopmentEnvironment`. -/
def setupDevelopmentEnvironment (_args : List CString) : CString :=
  "Development environment configured with full system access".toList

/-- The member function `performSystemDiagnostics`. -/
def performSystemDiagnostics (_args : List CString) : CString :=
  "System status: CPU optimal, Memory available, Network connected".toList

/-- The member function `registerCommands`: four assignments to `commands`. -/
def registerCommands (t : NativeTerminalCore) : NativeTerminalCore :=
  let c1 := t.commands.assign "omni".toList (fun args => processOmniscientCommand args)
  let c2 := c1.assign "gh-fix".toList (fun args => executeGitHubFix args)
  let c3 := c2.assign "dev".toList (fun args => setupDevelopmentEnvironment args)
  let c4 := c3.assign "sys".toList (fun args => performSystemDiagnostics args)
  { t with commands := c4 }

/-! ### Session set-up and dispatch -/

/-- The member function `initializeNativePTY`, followed in the parent process. The
branch `child_pid == 0` runs in the child only, which ends in `execl` or `exit(1)`
and never returns to the caller. -/
def initializeNativePTY (t : NativeTerminalCore) (w : World) :
    Bool × NativeTerminalCore × World :=
  let (r, fds, w1) := sys_openpty w
  if r < 0 then (false, t, w1)
  else
    let t1 :=
      match fds with
      | some (m, s) => { t with master_fd := m, slave_fd := s }
      | none => t
    let (pid, w2) := sys_fork w1
    let t2 := { t1 with child_pid := pid }
    let t3 := registerCommands t2
    (decide (pid > 0), t3, w2)

/-- The member function `executeSystemCommand`: two writes, one read into a buffer
of 4096 bytes, a terminator stored after the bytes read, and the buffer turned into
a string. -/
def executeSystemCommand (t : NativeTerminalCore) (w : World) (command : CString) :
    Option CString × World :=
  let w1 := sys_write w t.master_fd command
  let w2 := sys_write w1 t.master_fd [newline]
  match sys_read w2 t.master_fd (4096 - 1) with
  | (none, w3) => (none, w3)
  | (some (bytes, data), w3) =>
    if bytes > 0 then
      let buffer := data ++ [nul]
      (some (fromCStr buffer), w3)
    else (some "Command execution failed".toList, w3)

/-- The member function `executeCommand`. -/
def executeCommand (t : NativeTerminalCore) (w : World) (command : CString) :
    Option CString × World :=
  match tokenizeCommand command with
  | [] => (some [], w)
  | cmd :: args =>
    match t.commands.find cmd with
    | some handler => (some (handler args), w)
    | none => executeSystemCommand t w command

/-- A session is initialised when `initializeNativePTY` returned true on a new object. -/
def Initialised (t : NativeTerminalCore) : Prop :=
  ∃ (master slave pid : Int) (w w1 : World),
    initializeNativePTY (NativeTerminalCore.fresh master slave pid) w = (true, t, w1)

/-! ## Notions used to state the properties -/

/-- A quote character: one of the two characters that toggle `inQuotes`. -/
def isQuote (c : Char) : Prop := c = dquote ∨ c = squote

instance (c : Char) : Decidable (isQuote c) :=
  inferInstanceAs (Decidable (c = dquote ∨ c = squote))

/-- The loop of `tokenizeCommand` started in any state, followed by the final push. -/
def tokRun (ts : List CString) (tok : CString) (q : Bool) (cs : List Char) : List CString :=
  tokFinish (cs.foldl tokStep ⟨ts, tok, q⟩)

/-- The line made by wrapping each token in double quotes and joining with single spaces. -/
def quoteJoin (toks : List CString) : CString :=
  List.intercalate [' '] (toks.map (fun t => dquote :: (t ++ [dquote])))

/-- Every apostrophe replaced by a double quote. -/
def toDouble (c : Char) : Char := if c = squote then dquote else c

/-- Every double quote replaced by an apostrophe. -/
def toSingle (c : Char) : Char := if c = dquote then squote else c

/-- The four names `registerCommands` assigns a handler to. -/
def builtinNames : List CString :=
  ["omni".toList, "gh-fix".toList, "dev".toList, "sys".toList]

/-- A world before any session: the standard descriptors open, a pseudo-terminal and
a child available, a live shell with a short answer ready. -/
def bootWorld : World :=
  { trace := [], openFds := [0, 1, 2], children := [], ptySupply := some (3, 4),
    forkSupply := some 41, ready := "ok".toList, side := ShellSide.alive }

/-- The session made by `initializeNativePTY` on a new object in `bootWorld`. -/
def demoSession : NativeTerminalCore :=
  (initializeNativePTY (NativeTerminalCore.fresh 0 0 0) bootWorld).2.1

/-- The world that `initializeNativePTY` leaves behind `demoSession`. -/
def demoWorld : World :=
  (initializeNativePTY (NativeTerminalCore.fresh 0 0 0) bootWorld).2.2

/-- Every character is a quote character or a space outside a quoted region; `q` is
the quoting flag at the start. -/
def onlySeparators : Bool → List Char → Bool
  | _, [] => true
  | q, c :: cs =>
    if isQuote c then onlySeparators (!q) cs
    else if c = ' ' ∧ q = false then onlySeparators q cs
    else false

/-- The line `echo  "a b"`: two spaces after the name, then a quoted argument. -/
def quoteLine : CString :=
  "echo  ".toList ++ [dquote] ++ "a b".toList ++ [dquote]

/-- The world of `demoSession` with a shell side that makes every read fail. -/
def deadWorld : World :=
  { demoWorld with ready := [], side := ShellSide.failed }

/-- A line with a tab inside the first word and a newline inside the second. -/
def tabLine : CString :=
  ['a', Char.ofNat 9, 'b', ' ', ' ', 'c', newline, 'd']

/-! ## The bridge functions that create and destroy a session -/

/-- The expression `delete terminal`: the class declares no destructor, so the
implicit one destroys the three integers and the map and issues no system call. -/
def deleteTerminal (_terminal : NativeTerminalCore) (w : World) : World := w

/-- The bridge function `Java_com_spiralgang_ashlar_MainActivity_initializeNativeTerminal`.
The handle is `some` object, or `none` for the null handle 0; the three integers are
the indeterminate members of the new object. -/
def Java_com_spiralgang_ashlar_MainActivity_initializeNativeTerminal
    (master slave pid : Int) (w : World) : Option NativeTerminalCore × World :=
  let terminal := NativeTerminalCore.fresh master slave pid
  match initializeNativePTY terminal w with
  | (true, terminal1, w1) => (some terminal1, w1)
  | (false, terminal1, w1) => (none, deleteTerminal terminal1 w1)

/-- The bridge function `Java_com_spiralgang_ashlar_MainActivity_destroyNativeTerminal`. -/
def Java_com_spiralgang_ashlar_MainActivity_destroyNativeTerminal
    (handle : Option NativeTerminalCore) (w : World) : World :=
  match handle with
  | some terminal => deleteTerminal terminal w
  | none => w

/-! ## More notions used to state the properties -/

/-- The line with every quote character removed and every space outside a quoted
region removed; `seen` counts the quote characters before the current position, and
a position is inside a quoted region when that number is odd. -/
def withoutSeparators (seen : Nat) : List Char → List Char
  | [] => []
  | c :: cs =>
    if isQuote c then withoutSeparators (seen + 1) cs
    else if c = ' ' ∧ seen % 2 = 0 then withoutSeparators seen cs
    else c :: withoutSeparators seen cs

/-- Some space of the line stands inside a quoted region; `seen` counts the quote
characters before the current position. -/
def hasQuotedSpace (seen : Nat) : List Char → Bool
  | [] => false
  | c :: cs =>
    if isQuote c then hasQuotedSpace (seen + 1) cs
    else if c = ' ' ∧ seen % 2 = 1 then true
    else hasQuotedSpace seen cs

/-- The line with each character paired with the flag of its own position: true
when the character stands inside a quoted region, that is, when the number of quote
characters before it is odd; `seen` counts the quote characters before the start. -/
def markRegions (seen : Nat) : List Char → List (Char × Bool)
  | [] => []
  | c :: cs =>
    (c, decide (seen % 2 = 1)) :: markRegions (if isQuote c then seen + 1 else seen) cs

/-- A marked character that is neither a quote character nor a space outside a
quoted region. -/
def keptInToken (p : Char × Bool) : Bool :=
  decide (¬ isQuote p.1 ∧ ¬ (p.1 = ' ' ∧ p.2 = false))

/-- The number of quote characters of a line. -/
def quoteCount (line : List Char) : Nat :=
  (line.filter (fun c => decide (isQuote c))).length

/-- The outcome of the read that `executeSystemCommand` issues after its two writes:
the return value and the bytes stored in the buffer, or `none` for a read that never
returns. -/
def passthroughRead (t : NativeTerminalCore) (w : World) (command : CString) :
    Option (Int × List Char) :=
  (sys_read (sys_write (sys_write w t.master_fd command) t.master_fd [newline])
    t.master_fd (4096 - 1)).1

/-- The world of `demoSession` when the shell has the three bytes `a`, NUL, `b` ready. -/
def nulWorld : World :=
  { demoWorld with ready := ['a', nul, 'b'] }

/-- The world of `demoSession` when the shell has 4096 bytes `x` ready. -/
def fullWorld : World :=
  { demoWorld with ready := List.replicate 4096 'x' }

/-- A world in which the pseudo-terminal is allocated and the fork fails. -/
def forkFailWorld : World :=
  { bootWorld with forkSupply := none }

/-! ## The tokenizer loop -/

theorem tokStep_quote (s : TokState) (c : Char) (h : isQuote c) :
    tokStep s c = { s with inQuotes := !s.inQuotes } := by
  unfold isQuote at h
  simp [tokStep, h]

theorem tokStep_space_flush (ts : List CString) (tok : CString) (h : tok ≠ []) :
    tokStep ⟨ts, tok, false⟩ ' ' = ⟨ts ++ [tok], [], false⟩ := by
  have h1 : ¬ ((' ' : Char) = dquote ∨ (' ' : Char) = squote) := by decide
  simp [tokStep, h1, h]

theorem tokStep_space_skip (ts : List CString) :
    tokStep ⟨ts, [], false⟩ ' ' = ⟨ts, [], false⟩ := by
  have h1 : ¬ ((' ' : Char) = dquote ∨ (' ' : Char) = squote) := by decide
  simp [tokStep, h1]

theorem tokStep_append (ts : List CString) (tok : CString) (q : Bool) (c : Char)
    (hq : ¬ isQuote c) (hs : c ≠ ' ' ∨ q = true) :
    tokStep ⟨ts, tok, q⟩ c = ⟨ts, tok ++ [c], q⟩ := by
  unfold isQuote at hq
  have h2 : ¬ (c = ' ' ∧ q = false) := by
    rintro ⟨h3, h4⟩
    rcases hs with h5 | h5
    · exact h5 h3
    · rw [h4] at h5; exact Bool.noConfusion h5
  simp only [tokStep, hq, h2, if_false]

/-- The tokens already pushed are a prefix of the tokens pushed at the end. -/
theorem foldl_tokStep_tokens (cs : List Char) (ts : List CString) (tok : CString) (q : Bool) :
    cs.foldl tokStep ⟨ts, tok, q⟩ =
      ⟨ts ++ (cs.foldl tokStep ⟨[], tok, q⟩).tokens,
        (cs.foldl tokStep ⟨[], tok, q⟩).token,
        (cs.foldl tokStep ⟨[], tok, q⟩).inQuotes⟩ := by
  induction cs generalizing ts tok q with
  | nil => simp
  | cons c cs ih =>
    simp only [List.foldl_cons]
    by_cases hq : isQuote c
    · rw [tokStep_quote _ _ hq, tokStep_quote _ _ hq]
      exact ih ts tok (!q)
    · by_cases hs : c = ' ' ∧ q = false
      · obtain ⟨rfl, rfl⟩ := hs
        by_cases ht : tok = []
        · subst ht
          rw [tokStep_space_skip, tokStep_space_skip]
          exact ih ts [] false
        · rw [tokStep_space_flush _ _ ht, tokStep_space_flush _ _ ht, ih (ts ++ [tok]) [] false,
            ih ([] ++ [tok]) [] false]
          simp
      · have hs2 : c ≠ ' ' ∨ q = true := by
          by_cases h1 : c = ' '
          · right
            cases q
            · exact absurd ⟨h1, rfl⟩ hs
            · rfl
          · left; exact h1
        rw [tokStep_append _ _ _ _ hq hs2, tokStep_append _ _ _ _ hq hs2]
        exact ih ts (tok ++ [c]) q

theorem tokenizeCommand_eq_tokRun (cs : List Char) :
    tokenizeCommand cs = tokRun [] [] false cs := rfl

theorem tokRun_nil (ts : List CString) (tok : CString) (q : Bool) :
    tokRun ts tok q [] = if tok ≠ [] then ts ++ [tok] else ts := rfl

theorem tokRun_quote (ts : List CString) (tok : CString) (q : Bool) (c : Char) (cs : List Char)
    (h : isQuote c) : tokRun ts tok q (c :: cs) = tokRun ts tok (!q) cs := by
  simp only [tokRun, List.foldl_cons, tokStep_quote _ _ h]

theorem tokRun_space_flush (ts : List CString) (tok : CString) (cs : List Char) (h : tok ≠ []) :
    tokRun ts tok false (' ' :: cs) = tokRun (ts ++ [tok]) [] false cs := by
  simp only [tokRun, List.foldl_cons, tokStep_space_flush _ _ h]

theorem tokRun_space_skip (ts : List CString) (cs : List Char) :
    tokRun ts [] false (' ' :: cs) = tokRun ts [] false cs := by
  simp only [tokRun, List.foldl_cons, tokStep_space_skip]

theorem tokRun_append (ts : List CString) (tok : CString) (q : Bool) (c : Char) (cs : List Char)
    (hq : ¬ isQuote c) (hs : c ≠ ' ' ∨ q = true) :
    tokRun ts tok q (c :: cs) = tokRun ts (tok ++ [c]) q cs := by
  simp only [tokRun, List.foldl_cons, tokStep_append _ _ _ _ hq hs]

theorem tokRun_tokens (ts : List CString) (tok : CString) (q : Bool) (cs : List Char) :
    tokRun ts tok q cs = ts ++ tokRun [] tok q cs := by
  unfold tokRun
  rw [foldl_tokStep_tokens]
  unfold tokFinish
  by_cases h : (cs.foldl tokStep ⟨[], tok, q⟩).token = [] <;> simp [h]

theorem modifyHead_nil_append (l : List CString) :
    l.modifyHead (fun x => [] ++ x) = l := by
  cases l <;> simp [List.modifyHead]

/-- Without quote characters the loop splits at the spaces and drops the empty pieces. -/
theorem tokRun_noQuote (cs : List Char) (ts : List CString) (tok : CString)
    (h : ∀ c ∈ cs, ¬ isQuote c) :
    tokRun ts tok false cs =
      ts ++ (((cs.splitOn ' ').modifyHead (fun x => tok ++ x)).filter (fun x => x ≠ [])) := by
  induction cs generalizing ts tok with
  | nil =>
    rw [tokRun_nil]
    by_cases ht : tok = [] <;> simp [ht, List.splitOn, List.modifyHead]
  | cons c cs ih =>
    have hc : ¬ isQuote c := h c (List.mem_cons_self _ _)
    have hcs : ∀ d ∈ cs, ¬ isQuote d := fun d hd => h d (List.mem_cons_of_mem _ hd)
    by_cases hsp : c = ' '
    · subst hsp
      by_cases ht : tok = []
      · subst ht
        rw [tokRun_space_skip, ih ts [] hcs, modifyHead_nil_append]
        simp [List.splitOn, List.modifyHead]
      · rw [tokRun_space_flush _ _ _ ht, ih (ts ++ [tok]) [] hcs, modifyHead_nil_append]
        simp [List.splitOn, List.modifyHead, ht]
    · rw [tokRun_append _ _ _ _ _ hc (Or.inl hsp), ih ts (tok ++ [c]) hcs]
      simp [List.splitOn, hsp, List.modifyHead_modifyHead]
      congr 2

theorem tokRun_concat (ts : List CString) (tok : CString) (q : Bool) (a b : List Char) :
    tokRun ts tok q (a ++ b) =
      tokRun (a.foldl tokStep ⟨ts, tok, q⟩).tokens (a.foldl tokStep ⟨ts, tok, q⟩).token
        (a.foldl tokStep ⟨ts, tok, q⟩).inQuotes b := by
  simp only [tokRun, List.foldl_append]

/-- Inside a quoted region every character that is not a quote joins the token. -/
theorem foldl_tokStep_inQuotes (t : List Char) (ts : List CString) (tok : CString)
    (h : ∀ c ∈ t, ¬ isQuote c) :
    t.foldl tokStep ⟨ts, tok, true⟩ = ⟨ts, tok ++ t, true⟩ := by
  induction t generalizing tok with
  | nil => simp
  | cons c t ih =>
    have hc : ¬ isQuote c := h c (List.mem_cons_self _ _)
    rw [List.foldl_cons, tokStep_append _ _ _ _ hc (Or.inr rfl),
      ih (tok ++ [c]) (fun d hd => h d (List.mem_cons_of_mem _ hd))]
    simp

theorem tokRun_quoted (ts : List CString) (t rest : List Char) (h : ∀ c ∈ t, ¬ isQuote c) :
    tokRun ts [] false (dquote :: (t ++ dquote :: rest)) = tokRun ts t false rest := by
  have hd : isQuote dquote := Or.inl rfl
  rw [tokRun_quote _ _ _ _ _ hd, tokRun_concat]
  simp only [Bool.not_false]
  rw [foldl_tokStep_inQuotes _ _ _ h]
  simp only [List.nil_append]
  rw [tokRun_quote _ _ _ _ _ hd]
  rfl

theorem tokRun_quoteJoin (toks : List CString) (ts : List CString)
    (h : ∀ t ∈ toks, t ≠ [] ∧ ∀ c ∈ t, ¬ isQuote c) :
    tokRun ts [] false (quoteJoin toks) = ts ++ toks := by
  induction toks generalizing ts with
  | nil => simp [quoteJoin, List.intercalate, tokRun_nil]
  | cons t rest ih =>
    obtain ⟨hne, hnq⟩ := h t (List.mem_cons_self _ _)
    have hrest : ∀ u ∈ rest, u ≠ [] ∧ ∀ c ∈ u, ¬ isQuote c :=
      fun u hu => h u (List.mem_cons_of_mem _ hu)
    cases rest with
    | nil =>
      have e : quoteJoin [t] = dquote :: (t ++ dquote :: []) := by
        simp [quoteJoin, List.intercalate]
      rw [e, tokRun_quoted _ _ _ hnq, tokRun_nil]
      simp [hne]
    | cons u rest =>
      have e : quoteJoin (t :: u :: rest) =
          dquote :: (t ++ dquote :: (' ' :: quoteJoin (u :: rest))) := by
        simp [quoteJoin, List.intercalate]
      rw [e, tokRun_quoted _ _ _ hnq, tokRun_space_flush _ _ _ hne, ih (ts ++ [t]) hrest]
      simp

theorem tokStep_toDouble (s : TokState) (c : Char) : tokStep s (toDouble c) = tokStep s c := by
  unfold toDouble
  by_cases h : c = squote
  · rw [if_pos h, h, tokStep_quote _ _ (Or.inl rfl), tokStep_quote _ _ (Or.inr rfl)]
  · rw [if_neg h]

theorem tokStep_toSingle (s : TokState) (c : Char) : tokStep s (toSingle c) = tokStep s c := by
  unfold toSingle
  by_cases h : c = dquote
  · rw [if_pos h, h, tokStep_quote _ _ (Or.inl rfl), tokStep_quote _ _ (Or.inr rfl)]
  · rw [if_neg h]

theorem foldl_tokStep_map (f : Char → Char) (hf : ∀ s c, tokStep s (f c) = tokStep s c)
    (cs : List Char) (s : TokState) :
    (cs.map f).foldl tokStep s = cs.foldl tokStep s := by
  induction cs generalizing s with
  | nil => rfl
  | cons c cs ih => simp only [List.map_cons, List.foldl_cons, hf, ih]

theorem tokFinish_inQuotes (ts : List CString) (tok : CString) (q1 q2 : Bool) :
    tokFinish ⟨ts, tok, q1⟩ = tokFinish ⟨ts, tok, q2⟩ := rfl

theorem tokRun_snoc_quote (ts : List CString) (tok : CString) (q : Bool) (cs : List Char)
    (c : Char) (h : isQuote c) : tokRun ts tok q (cs ++ [c]) = tokRun ts tok q cs := by
  simp only [tokRun, List.foldl_append, List.foldl_cons, List.foldl_nil, tokStep_quote _ _ h]
  rfl

/-! ## The registry of an initialised session -/

theorem demoSession_initialised : Initialised demoSession :=
  ⟨0, 0, 0, bootWorld, _, rfl⟩

theorem registerCommands_fresh (t : NativeTerminalCore) (h : t.commands = []) :
    (registerCommands t).commands =
      [("omni".toList, fun args => processOmniscientCommand args),
       ("gh-fix".toList, fun args => executeGitHubFix args),
       ("dev".toList, fun args => setupDevelopmentEnvironment args),
       ("sys".toList, fun args => performSystemDiagnostics args)] := by
  unfold registerCommands
  simp only [h]
  rfl

theorem initialised_commands (t : NativeTerminalCore) (h : Initialised t) :
    t.commands =
      [("omni".toList, fun args => processOmniscientCommand args),
       ("gh-fix".toList, fun args => executeGitHubFix args),
       ("dev".toList, fun args => setupDevelopmentEnvironment args),
       ("sys".toList, fun args => performSystemDiagnostics args)] := by
  obtain ⟨m, s, p, w, w1, h⟩ := h
  unfold initializeNativePTY sys_openpty at h
  cases hp : w.ptySupply with
  | none => simp [hp] at h
  | some ms =>
    obtain ⟨m1, s1⟩ := ms
    simp only [hp] at h
    simp at h
    obtain ⟨-, h2, -⟩ := h
    rw [← h2]
    exact registerCommands_fresh _ rfl

theorem lookup_cons_ne (k a : CString) (b : Handler) (l : Registry) (h : k ≠ a) :
    List.lookup k ((a, b) :: l) = List.lookup k l := by
  have hb : (k == a) = false := by simpa using h
  simp only [List.lookup, hb]

theorem initialised_find (t : NativeTerminalCore) (h : Initialised t) (cmd : CString) :
    t.commands.find cmd =
      if cmd = "omni".toList then some processOmniscientCommand
      else if cmd = "gh-fix".toList then some executeGitHubFix
      else if cmd = "dev".toList then some setupDevelopmentEnvironment
      else if cmd = "sys".toList then some performSystemDiagnostics
      else none := by
  rw [initialised_commands t h]
  unfold Registry.find
  by_cases h1 : cmd = "omni".toList
  · subst h1; rfl
  · by_cases h2 : cmd = "gh-fix".toList
    · subst h2; rfl
    · by_cases h3 : cmd = "dev".toList
      · subst h3; rfl
      · by_cases h4 : cmd = "sys".toList
        · subst h4; rfl
        · rw [lookup_cons_ne _ _ _ _ h1, lookup_cons_ne _ _ _ _ h2, lookup_cons_ne _ _ _ _ h3,
            lookup_cons_ne _ _ _ _ h4, if_neg h1, if_neg h2, if_neg h3, if_neg h4]
          rfl

theorem initialised_find_none (t : NativeTerminalCore) (h : Initialised t) (cmd : CString)
    (hcmd : cmd ∉ builtinNames) : t.commands.find cmd = none := by
  rw [initialised_find t h]
  simp only [builtinNames, List.mem_cons, List.mem_singleton, not_or, List.not_mem_nil,
    or_false] at hcmd
  obtain ⟨h1, h2, h3, h4⟩ := hcmd
  rw [if_neg h1, if_neg h2, if_neg h3, if_neg h4]

theorem bytesWritten_append (fd : Int) (a b : List SysCall) :
    bytesWritten fd (a ++ b) = bytesWritten fd a ++ bytesWritten fd b := by
  induction a with
  | nil => rfl
  | cons c a ih =>
    cases c with
    | openpty => simpa [bytesWritten] using ih
    | fork => simpa [bytesWritten] using ih
    | read fd1 n => simpa [bytesWritten] using ih
    | write fd1 buf =>
      by_cases hfd : fd1 = fd
      · simp [bytesWritten, hfd, ih]
      · simp [bytesWritten, hfd, ih]

theorem executeSystemCommand_trace (t : NativeTerminalCore) (w : World) (command : CString) :
    (executeSystemCommand t w command).2.trace =
      w.trace ++ [SysCall.write t.master_fd command, SysCall.write t.master_fd [newline],
        SysCall.read t.master_fd 4095] := by
  unfold executeSystemCommand sys_read sys_write
  cases hs : w.side <;> by_cases hr : w.ready = [] <;> simp [hs, hr] <;> split <;> simp

theorem tokRun_eq_nil_iff (cs : List Char) (ts : List CString) (tok : CString) (q : Bool) :
    tokRun ts tok q cs = [] ↔ ts = [] ∧ tok = [] ∧ onlySeparators q cs = true := by
  induction cs generalizing ts tok q with
  | nil =>
    rw [tokRun_nil]
    by_cases ht : tok = [] <;> simp [ht, onlySeparators]
  | cons c cs ih =>
    by_cases hq : isQuote c
    · rw [tokRun_quote _ _ _ _ _ hq, ih]
      simp [onlySeparators, hq]
    · by_cases hs : c = ' ' ∧ q = false
      · obtain ⟨rfl, rfl⟩ := hs
        by_cases ht : tok = []
        · subst ht
          rw [tokRun_space_skip, ih]
          simp [onlySeparators, hq]
        · rw [tokRun_space_flush _ _ _ ht, ih]
          simp [ht]
      · have hs2 : c ≠ ' ' ∨ q = true := by
          by_cases h1 : c = ' '
          · right
            cases q
            · exact absurd ⟨h1, rfl⟩ hs
            · rfl
          · left; exact h1
        rw [tokRun_append _ _ _ _ _ hq hs2, ih]
        simp [onlySeparators, hq, hs]

/-! ## Dispatch -/

/-- C1: in an initialised session, a line whose first token is one of the registered
names omni, gh-fix, dev, sys makes `executeCommand` return the output of that name's
handler applied to the tokens after the first, in order. -/
theorem executeCommand_builtin_handler (t : NativeTerminalCore) (hinit : Initialised t)
    (w : World) (line cmd : CString) (args : List CString)
    (htok : tokenizeCommand line = cmd :: args) :
    (cmd = "omni".toList →
      (executeCommand t w line).1 = some (processOmniscientCommand args)) ∧
    (cmd = "gh-fix".toList →
      (executeCommand t w line).1 = some (executeGitHubFix args)) ∧
    (cmd = "dev".toList →
      (executeCommand t w line).1 = some (setupDevelopmentEnvironment args)) ∧
    (cmd = "sys".toList →
      (executeCommand t w line).1 = some (performSystemDiagnostics args)) := by
  have hf := initialised_find t hinit cmd
  refine ⟨?_, ?_, ?_, ?_⟩ <;> intro hc <;> subst hc <;>
    simp only [executeCommand, htok, hf] <;> rfl

/-- Witness of C1: the line `omni fix 403` in the example session. -/
theorem executeCommand_builtin_handler_witness :
    Initialised demoSession ∧
    tokenizeCommand "omni fix 403".toList = ["omni".toList, "fix".toList, "403".toList] ∧
    (executeCommand demoSession demoWorld "omni fix 403".toList).1 =
      some "GitHub 403 permissions resolved via native HTTP client".toList :=
  ⟨demoSession_initialised, by decide,
    (executeCommand_builtin_handler demoSession demoSession_initialised demoWorld
      "omni fix 403".toList "omni".toList ["fix".toList, "403".toList] (by decide)).1 rfl⟩

/-- C2: in an initialised session, a line whose first token is not a registered name
is handed to `executeSystemCommand`: the call writes the original line and then one
newline to the master descriptor, issues one read after them, and returns what
`executeSystemCommand` returns. -/
theorem executeCommand_passthrough (t : NativeTerminalCore) (hinit : Initialised t)
    (w : World) (line cmd : CString) (args : List CString)
    (htok : tokenizeCommand line = cmd :: args) (hcmd : cmd ∉ builtinNames) :
    executeCommand t w line = executeSystemCommand t w line ∧
    (executeCommand t w line).2.trace =
      w.trace ++ [SysCall.write t.master_fd line, SysCall.write t.master_fd [newline],
        SysCall.read t.master_fd 4095] ∧
    bytesWritten t.master_fd (executeCommand t w line).2.trace =
      bytesWritten t.master_fd w.trace ++ (line ++ [newline]) := by
  have hf := initialised_find_none t hinit cmd hcmd
  have he : executeCommand t w line = executeSystemCommand t w line := by
    simp only [executeCommand, htok, hf]
  refine ⟨he, ?_, ?_⟩
  · rw [he, executeSystemCommand_trace]
  · rw [he, executeSystemCommand_trace, bytesWritten_append]
    simp [bytesWritten]

/-- Witness of C2: the line `echo  "a b"`, with two spaces and a quoted argument. -/
theorem executeCommand_passthrough_witness :
    Initialised demoSession ∧
    tokenizeCommand (quoteLine) = ["echo".toList, "a b".toList] ∧
    "echo".toList ∉ builtinNames ∧
    bytesWritten demoSession.master_fd (executeCommand demoSession demoWorld quoteLine).2.trace =
      bytesWritten demoSession.master_fd demoWorld.trace ++ (quoteLine ++ [newline]) :=
  ⟨demoSession_initialised, by decide, by decide,
    (executeCommand_passthrough demoSession demoSession_initialised demoWorld
      quoteLine "echo".toList ["a b".toList] (by decide) (by decide)).2.2⟩

/-- C3: a line dispatched to a built-in handler gives the same string in every two
worlds (any shell answer, a dead shell, a silent shell), the call returns, writes
nothing to the master descriptor, issues no read, and leaves the world as it was. -/
theorem executeCommand_builtin_frame (t : NativeTerminalCore) (hinit : Initialised t)
    (line cmd : CString) (args : List CString) (htok : tokenizeCommand line = cmd :: args)
    (hcmd : cmd ∈ builtinNames) (w1 w2 : World) :
    (executeCommand t w1 line).1 = (executeCommand t w2 line).1 ∧
    (executeCommand t w1 line).1 ≠ none ∧
    (executeCommand t w1 line).2 = w1 ∧
    bytesWritten t.master_fd (executeCommand t w1 line).2.trace =
      bytesWritten t.master_fd w1.trace ∧
    readsIssued (executeCommand t w1 line).2.trace = readsIssued w1.trace := by
  have hf := initialised_find t hinit cmd
  simp only [builtinNames, List.mem_cons, List.mem_singleton, List.not_mem_nil,
    or_false] at hcmd
  rcases hcmd with hc | hc | hc | hc <;> subst hc <;>
    simp only [executeCommand, htok, hf] <;> simp

/-- Witness of C3: the line `sys` with a live shell and with a failed one. -/
theorem executeCommand_builtin_frame_witness :
    Initialised demoSession ∧
    tokenizeCommand "sys".toList = ["sys".toList] ∧
    "sys".toList ∈ builtinNames ∧
    (executeCommand demoSession demoWorld "sys".toList).1 =
      (executeCommand demoSession deadWorld "sys".toList).1 ∧
    (executeCommand demoSession demoWorld "sys".toList).2 = demoWorld :=
  have h := executeCommand_builtin_frame demoSession demoSession_initialised
    "sys".toList "sys".toList [] (by decide) (by decide) demoWorld deadWorld
  ⟨demoSession_initialised, by decide, by decide, h.1, h.2.2.1⟩

/-- Counterexample to C4 as stated: the line made of a double quote, a space and a
double quote holds only spaces and quote characters, yet it has the token `" "`, and
`executeCommand` writes it to the master descriptor and reads. -/
theorem executeCommand_quoted_space_not_empty :
    (∀ c ∈ [dquote, ' ', dquote], c = ' ' ∨ isQuote c) ∧
    tokenizeCommand [dquote, ' ', dquote] = [[' ']] ∧
    (executeCommand demoSession demoWorld [dquote, ' ', dquote]).1 ≠ some [] ∧
    (executeCommand demoSession demoWorld [dquote, ' ', dquote]).2.trace =
      demoWorld.trace ++ [SysCall.write 3 [dquote, ' ', dquote], SysCall.write 3 [newline],
        SysCall.read 3 4095] := by
  refine ⟨by decide, by decide, ?_, ?_⟩
  · have h : (executeCommand demoSession demoWorld [dquote, ' ', dquote]).1 =
        some "ok".toList := by rfl
    rw [h]
    decide
  · rfl

/-- C4, amended: a line has an empty tokenisation exactly when each of its characters
is a quote character or a space outside a quoted region, and for every such line
`executeCommand` returns the empty string, writes nothing, reads nothing and leaves
the world as it was. -/
theorem executeCommand_empty_tokens (t : NativeTerminalCore) (w : World) (line : CString)
    (htok : tokenizeCommand line = []) :
    onlySeparators false line = true ∧
    (∀ l : CString, tokenizeCommand l = [] ↔ onlySeparators false l = true) ∧
    executeCommand t w line = (some [], w) ∧
    bytesWritten t.master_fd (executeCommand t w line).2.trace =
      bytesWritten t.master_fd w.trace ∧
    readsIssued (executeCommand t w line).2.trace = readsIssued w.trace := by
  have hiff : ∀ l : CString, tokenizeCommand l = [] ↔ onlySeparators false l = true := by
    intro l
    rw [tokenizeCommand_eq_tokRun, tokRun_eq_nil_iff]
    simp
  have he : executeCommand t w line = (some [], w) := by
    simp only [executeCommand, htok]
  refine ⟨(hiff line).1 htok, hiff, he, ?_, ?_⟩ <;> rw [he]

/-- Witness of C4: the line made of a space, two double quotes and a space. -/
theorem executeCommand_empty_tokens_witness :
    tokenizeCommand [' ', dquote, dquote, ' '] = [] ∧
    executeCommand demoSession demoWorld [' ', dquote, dquote, ' '] = (some [], demoWorld) :=
  ⟨by decide,
    (executeCommand_empty_tokens demoSession demoWorld [' ', dquote, dquote, ' ']
      (by decide)).2.2.1⟩

/-! ## The tokenizer -/

/-- C5: for a line with neither a double quote nor an apostrophe, `tokenizeCommand`
gives the pieces of the line split at every space (0x20 only), the empty pieces
deleted; the empty line has no token, `a b c` has three and `a   b` has two. -/
theorem tokenizeCommand_noQuote (line : CString) (hd : dquote ∉ line) (hs : squote ∉ line) :
    tokenizeCommand line = (line.splitOn ' ').filter (fun piece => piece ≠ []) ∧
    tokenizeCommand [] = [] ∧
    tokenizeCommand "a b c".toList = ["a".toList, "b".toList, "c".toList] ∧
    tokenizeCommand "a   b".toList = ["a".toList, "b".toList] := by
  refine ⟨?_, by decide, by decide, by decide⟩
  have h : ∀ c ∈ line, ¬ isQuote c := by
    intro c hc hq
    rcases hq with hq | hq
    · exact hd (hq ▸ hc)
    · exact hs (hq ▸ hc)
  rw [tokenizeCommand_eq_tokRun, tokRun_noQuote line [] [] h, modifyHead_nil_append]
  simp

/-- Witness of C5: a line with a tab and a newline, which are ordinary characters. -/
theorem tokenizeCommand_noQuote_witness :
    dquote ∉ tabLine ∧ squote ∉ tabLine ∧
    tokenizeCommand tabLine = (tabLine.splitOn ' ').filter (fun piece => piece ≠ []) ∧
    tokenizeCommand tabLine = ['a' :: Char.ofNat 9 :: ['b'], 'c' :: newline :: ['d']] :=
  ⟨by decide, by decide,
    (tokenizeCommand_noQuote tabLine (by decide) (by decide)).1, by decide⟩

/-- C6: for tokens that are non-empty and hold no quote character (spaces allowed),
the line made by wrapping each in double quotes and joining with single spaces is
tokenised back to the same list; and the line `a "b c" d` gives `a`, `b c`, `d`. -/
theorem tokenizeCommand_quoteJoin (toks : List CString)
    (h : ∀ t ∈ toks, t ≠ [] ∧ dquote ∉ t ∧ squote ∉ t) :
    tokenizeCommand (quoteJoin toks) = toks ∧
    tokenizeCommand ("a ".toList ++ [dquote] ++ "b c".toList ++ [dquote] ++ " d".toList) =
      ["a".toList, "b c".toList, "d".toList] := by
  refine ⟨?_, by decide⟩
  have h2 : ∀ t ∈ toks, t ≠ [] ∧ ∀ c ∈ t, ¬ isQuote c := by
    intro t ht
    obtain ⟨h1, hd, hs⟩ := h t ht
    refine ⟨h1, ?_⟩
    intro c hc hq
    rcases hq with hq | hq
    · exact hd (hq ▸ hc)
    · exact hs (hq ▸ hc)
  rw [tokenizeCommand_eq_tokRun, tokRun_quoteJoin toks [] h2]
  simp

/-- Witness of C6: the tokens `a`, `b c`, `d`. -/
theorem tokenizeCommand_quoteJoin_witness :
    (∀ t ∈ ["a".toList, "b c".toList, "d".toList], t ≠ [] ∧ dquote ∉ t ∧ squote ∉ t) ∧
    tokenizeCommand (quoteJoin ["a".toList, "b c".toList, "d".toList]) =
      ["a".toList, "b c".toList, "d".toList] :=
  ⟨by decide,
    (tokenizeCommand_quoteJoin ["a".toList, "b c".toList, "d".toList] (by decide)).1⟩

/-- C7: the two quote characters are one toggle: replacing every apostrophe by a
double quote, or every double quote by an apostrophe, leaves the tokens unchanged;
the line `a 'b" c' d` gives `a`, `b`, `c d` and not `a`, `b" c`, `d`. -/
theorem tokenizeCommand_quote_toggle (line : CString) :
    tokenizeCommand (line.map toDouble) = tokenizeCommand line ∧
    tokenizeCommand (line.map toSingle) = tokenizeCommand line ∧
    tokenizeCommand ("a ".toList ++ [squote, 'b', dquote] ++ " c".toList ++ [squote] ++
        " d".toList) = ["a".toList, "b".toList, "c d".toList] ∧
    tokenizeCommand ("a ".toList ++ [squote, 'b', dquote] ++ " c".toList ++ [squote] ++
        " d".toList) ≠ ["a".toList, 'b' :: dquote :: " c".toList, "d".toList] := by
  refine ⟨?_, ?_, by decide, by decide⟩
  · unfold tokenizeCommand
    rw [foldl_tokStep_map toDouble tokStep_toDouble]
  · unfold tokenizeCommand
    rw [foldl_tokStep_map toSingle tokStep_toSingle]

/-- C8: `tokenizeCommand` is a total function into token lists, the final push of a
non-empty pending token does not look at the quoting flag, and a quote character
added at the end of a line changes nothing. -/
theorem tokenizeCommand_trailing_quote (line : CString) (c : Char) (hc : c = dquote ∨ c = squote) :
    tokenizeCommand (line ++ [c]) = tokenizeCommand line ∧
    (∀ (ts : List CString) (tok : CString) (q : Bool),
      tok ≠ [] → tokFinish ⟨ts, tok, q⟩ = ts ++ [tok]) ∧
    (∀ (ts : List CString) (tok : CString) (q : Bool),
      tokFinish ⟨ts, tok, q⟩ = tokFinish ⟨ts, tok, !q⟩) ∧
    tokenizeCommand (dquote :: "a b".toList) = ["a b".toList] := by
  refine ⟨?_, ?_, ?_, by decide⟩
  · rw [tokenizeCommand_eq_tokRun, tokenizeCommand_eq_tokRun]
    exact tokRun_snoc_quote _ _ _ _ _ hc
  · intro ts tok q ht
    simp [tokFinish, ht]
  · intro ts tok q
    rfl

/-- Witness of C8: an unterminated quote after `a b`. -/
theorem tokenizeCommand_trailing_quote_witness :
    (squote = dquote ∨ squote = squote) ∧
    tokenizeCommand ("a b".toList ++ [squote]) = tokenizeCommand "a b".toList :=
  ⟨by decide, (tokenizeCommand_trailing_quote "a b".toList squote (by decide)).1⟩

/-! ## The omni handler -/

theorem processOmniscientCommand_cons_ne_usage (a : CString) (rest : List CString) :
    processOmniscientCommand (a :: rest) ≠ "Usage: omni [fix|dev|sys] <target>".toList := by
  unfold processOmniscientCommand
  rw [if_neg (List.cons_ne_nil a rest)]
  simp only []
  split_ifs <;> decide

/-- C9: the omni handler returns the usage string exactly when it has no argument; so
in an initialised session the line `omni` gives the usage string, and no line whose
tokens are `omni` and at least one argument does. -/
theorem omni_usage_iff_no_argument (t : NativeTerminalCore) (hinit : Initialised t)
    (w : World) :
    (∀ args : List CString,
      processOmniscientCommand args = "Usage: omni [fix|dev|sys] <target>".toList ↔
        args = []) ∧
    (executeCommand t w "omni".toList).1 =
      some "Usage: omni [fix|dev|sys] <target>".toList ∧
    (∀ (line a : CString) (rest : List CString),
      tokenizeCommand line = "omni".toList :: a :: rest →
        (executeCommand t w line).1 ≠ some "Usage: omni [fix|dev|sys] <target>".toList) := by
  refine ⟨?_, ?_, ?_⟩
  · intro args
    cases args with
    | nil => simp [processOmniscientCommand]
    | cons a rest =>
      constructor
      · intro h
        exact absurd h (processOmniscientCommand_cons_ne_usage a rest)
      · intro h
        exact absurd h (List.cons_ne_nil a rest)
  · have htok : tokenizeCommand "omni".toList = ["omni".toList] := by decide
    simp only [executeCommand, htok, initialised_find t hinit]
    rfl
  · intro line a rest htok
    have he : (executeCommand t w line).1 = some (processOmniscientCommand (a :: rest)) := by
      simp only [executeCommand, htok, initialised_find t hinit]
      rfl
    rw [he]
    intro h
    exact processOmniscientCommand_cons_ne_usage a rest (Option.some.inj h)

/-- Witness of C9: the example session. -/
theorem omni_usage_iff_no_argument_witness :
    Initialised demoSession ∧
    (executeCommand demoSession demoWorld "omni".toList).1 =
      some "Usage: omni [fix|dev|sys] <target>".toList :=
  ⟨demoSession_initialised,
    (omni_usage_iff_no_argument demoSession demoSession_initialised demoWorld).2.1⟩

/-- C10: for a non-empty argument list the omni handler looks at the first two
arguments only: `fix 403` gives the 403 string, `fix deps` the dependencies string,
`dev` and `sys` their strings, and every other list the generic string. -/
theorem omni_decided_by_first_two (args : List CString) (hne : args ≠ []) :
    processOmniscientCommand args = processOmniscientCommand (args.take 2) ∧
    (∀ rest, processOmniscientCommand ("fix".toList :: "403".toList :: rest) =
      "GitHub 403 permissions resolved via native HTTP client".toList) ∧
    (∀ rest, processOmniscientCommand ("fix".toList :: "deps".toList :: rest) =
      "Package dependencies automatically resolved".toList) ∧
    (∀ rest, processOmniscientCommand ("dev".toList :: rest) =
      "Development environment configured".toList) ∧
    (∀ rest, processOmniscientCommand ("sys".toList :: rest) =
      "System diagnostics: All systems operational".toList) ∧
    (∀ second rest, second ≠ "403".toList → second ≠ "deps".toList →
      processOmniscientCommand ("fix".toList :: second :: rest) =
        "Omniscient command executed successfully".toList) ∧
    processOmniscientCommand ["fix".toList] =
      "Omniscient command executed successfully".toList ∧
    (∀ action rest, action ≠ "fix".toList → action ≠ "dev".toList → action ≠ "sys".toList →
      processOmniscientCommand (action :: rest) =
        "Omniscient command executed successfully".toList) := by
  refine ⟨?_, ?_, ?_, ?_, ?_, ?_, by decide, ?_⟩
  · cases args with
    | nil => exact absurd rfl hne
    | cons a rest =>
      cases rest with
      | nil => rfl
      | cons b rest => simp [processOmniscientCommand]
  · intro rest
    simp [processOmniscientCommand]
  · intro rest
    simp [processOmniscientCommand]
  · intro rest
    simp [processOmniscientCommand]
  · intro rest
    simp [processOmniscientCommand]
  · intro second rest h1 h2
    have h1b : ¬ second = ['4', '0', '3'] := h1
    have h2b : ¬ second = ['d', 'e', 'p', 's'] := h2
    simp [processOmniscientCommand, h1b, h2b]
  · intro action rest h1 h2 h3
    have h1b : ¬ action = ['f', 'i', 'x'] := h1
    have h2b : ¬ action = ['d', 'e', 'v'] := h2
    have h3b : ¬ action = ['s', 'y', 's'] := h3
    simp [processOmniscientCommand, h1b, h2b, h3b]

/-- Witness of C10: the arguments `fix other more`. -/
theorem omni_decided_by_first_two_witness :
    ["fix".toList, "other".toList, "more".toList] ≠ [] ∧
    processOmniscientCommand ["fix".toList, "other".toList, "more".toList] =
      processOmniscientCommand ["fix".toList, "other".toList] ∧
    processOmniscientCommand ["fix".toList, "other".toList, "more".toList] =
      "Omniscient command executed successfully".toList :=
  have h := omni_decided_by_first_two ["fix".toList, "other".toList, "more".toList]
    (by decide)
  ⟨by decide, h.1, h.2.2.2.2.2.1 "other".toList ["more".toList] (by decide) (by decide)⟩

/-! ## The handlers without arguments and the registry -/

/-- C11: the gh-fix, dev and sys handlers return one fixed string each whatever the
arguments, so in an initialised session a line whose first token is gh-fix, dev or
sys gives that string whatever follows the name. -/
theorem fixed_handlers_ignore_arguments (t : NativeTerminalCore) (hinit : Initialised t)
    (w : World) (line : CString) (args : List CString) :
    executeGitHubFix args =
      "GitHub integration active - repository access enabled".toList ∧
    setupDevelopmentEnvironment args =
      "Development environment configured with full system access".toList ∧
    performSystemDiagnostics args =
      "System status: CPU optimal, Memory available, Network connected".toList ∧
    (tokenizeCommand line = "gh-fix".toList :: args →
      (executeCommand t w line).1 =
        some "GitHub integration active - repository access enabled".toList) ∧
    (tokenizeCommand line = "dev".toList :: args →
      (executeCommand t w line).1 =
        some "Development environment configured with full system access".toList) ∧
    (tokenizeCommand line = "sys".toList :: args →
      (executeCommand t w line).1 =
        some "System status: CPU optimal, Memory available, Network connected".toList) := by
  refine ⟨rfl, rfl, rfl, ?_, ?_, ?_⟩ <;> intro htok <;>
    simp only [executeCommand, htok, initialised_find t hinit] <;> rfl

/-- Witness of C11: the line `sys now please` in the example session. -/
theorem fixed_handlers_ignore_arguments_witness :
    Initialised demoSession ∧
    tokenizeCommand "sys now please".toList =
      "sys".toList :: ["now".toList, "please".toList] ∧
    (executeCommand demoSession demoWorld "sys now please".toList).1 =
      some "System status: CPU optimal, Memory available, Network connected".toList :=
  ⟨demoSession_initialised, by decide,
    (fixed_handlers_ignore_arguments demoSession demoSession_initialised demoWorld
      "sys now please".toList ["now".toList, "please".toList]).2.2.2.2.2 (by decide)⟩

theorem executeSystemCommand_world_ne (t : NativeTerminalCore) (w : World)
    (command : CString) : (executeSystemCommand t w command).2 ≠ w := by
  intro h
  have h1 := executeSystemCommand_trace t w command
  rw [h] at h1
  have h2 := congrArg List.length h1
  simp at h2

/-- C12: an initialised registry has exactly the keys omni, gh-fix, dev, sys, and the
lookup is by equality of the whole name: a line takes the built-in path (the world
is left untouched) exactly when its first token is one of the four names, and takes
the passthrough otherwise; `sy`, `sys2`, `SYS` and `unknown-cmd` are passed through. -/
theorem registry_exact_match (t : NativeTerminalCore) (hinit : Initialised t) (w : World)
    (line cmd : CString) (args : List CString) (htok : tokenizeCommand line = cmd :: args) :
    t.commands.map Prod.fst = builtinNames ∧
    ((t.commands.find cmd).isSome = true ↔ cmd ∈ builtinNames) ∧
    ((executeCommand t w line).2 = w ↔ cmd ∈ builtinNames) ∧
    (cmd ∉ builtinNames → executeCommand t w line = executeSystemCommand t w line) ∧
    "sy".toList ∉ builtinNames ∧ "sys2".toList ∉ builtinNames ∧
    "SYS".toList ∉ builtinNames ∧ "unknown-cmd".toList ∉ builtinNames := by
  have hfind : (t.commands.find cmd).isSome = true ↔ cmd ∈ builtinNames := by
    constructor
    · intro h
      by_contra hc
      rw [initialised_find_none t hinit cmd hc] at h
      exact Bool.noConfusion h
    · intro h
      rw [initialised_find t hinit]
      simp only [builtinNames, List.mem_cons, List.mem_singleton, List.not_mem_nil,
        or_false] at h
      rcases h with hc | hc | hc | hc <;> subst hc <;> rfl
  have hpass : cmd ∉ builtinNames →
      executeCommand t w line = executeSystemCommand t w line := by
    intro hc
    simp only [executeCommand, htok, initialised_find_none t hinit cmd hc]
  refine ⟨?_, hfind, ?_, hpass, by decide, by decide, by decide, by decide⟩
  · rw [initialised_commands t hinit]
    rfl
  · constructor
    · intro h
      by_contra hc
      rw [hpass hc] at h
      exact executeSystemCommand_world_ne t w line h
    · intro hc
      have hs := hfind.2 hc
      cases hf : t.commands.find cmd with
      | none => rw [hf] at hs; exact Bool.noConfusion hs
      | some handler => simp only [executeCommand, htok, hf]

/-- Witness of C12: the line `SYS` in the example session is passed through. -/
theorem registry_exact_match_witness :
    Initialised demoSession ∧
    tokenizeCommand "SYS".toList = ["SYS".toList] ∧
    executeCommand demoSession demoWorld "SYS".toList =
      executeSystemCommand demoSession demoWorld "SYS".toList :=
  ⟨demoSession_initialised, by decide,
    (registry_exact_match demoSession demoSession_initialised demoWorld
      "SYS".toList "SYS".toList [] (by decide)).2.2.2.1 (by decide)⟩

/-! ## The passthrough -/

theorem fromCStr_terminated (data : List Char) :
    fromCStr (data ++ [nul]) = data.takeWhile (fun c => c ≠ nul) := by
  unfold fromCStr
  induction data with
  | nil => decide
  | cons c data ih =>
    rw [List.cons_append, List.takeWhile_cons, List.takeWhile_cons, ih]

theorem takeWhile_ne_nul_of_not_mem (data : List Char) (h : nul ∉ data) :
    data.takeWhile (fun c => c ≠ nul) = data := by
  rw [List.takeWhile_eq_self_iff]
  intro x hx
  have hne : x ≠ nul := fun e => h (e ▸ hx)
  simpa using hne

theorem executeSystemCommand_result (t : NativeTerminalCore) (w : World) (command : CString) :
    (executeSystemCommand t w command).1 =
      match passthroughRead t w command with
      | none => none
      | some (bytes, data) =>
        if bytes > 0 then some (fromCStr (data ++ [nul]))
        else some "Command execution failed".toList := by
  unfold executeSystemCommand passthroughRead
  dsimp only
  split
  · rename_i w3 heq
    rw [heq]
  · rename_i bytes data w3 heq
    rw [heq]
    by_cases hb : bytes > 0
    · simp only [hb, if_true]
    · simp only [hb, if_false]

/-- What the read delivers, in terms of the bytes ready and the state of the shell side. -/
theorem passthroughRead_eq (t : NativeTerminalCore) (w : World) (command : CString) :
    passthroughRead t w command =
      match w.side with
      | ShellSide.failed => some (-1, [])
      | ShellSide.closed =>
        if w.ready = [] then some (0, [])
        else some (((w.ready.take 4095).length : Int), w.ready.take 4095)
      | ShellSide.alive =>
        if w.ready = [] then none
        else some (((w.ready.take 4095).length : Int), w.ready.take 4095) := by
  unfold passthroughRead sys_read sys_write
  cases hs : w.side <;> by_cases hr : w.ready = [] <;> simp [hs, hr]

theorem passthroughRead_length (t : NativeTerminalCore) (w : World) (command : CString)
    (n : Int) (data : List Char) (h : passthroughRead t w command = some (n, data)) :
    (data.length : Int) = n ∨ (n = -1 ∧ data = []) := by
  rw [passthroughRead_eq] at h
  cases hs : w.side <;> rw [hs] at h <;> simp only [] at h
  · by_cases hr : w.ready = []
    · rw [if_pos hr] at h; exact Option.noConfusion h
    · rw [if_neg hr] at h
      have h2 := Option.some.inj h
      left
      rw [← (Prod.mk.inj h2).1, ← (Prod.mk.inj h2).2]
  · by_cases hr : w.ready = []
    · rw [if_pos hr] at h
      have h2 := Option.some.inj h
      left
      rw [← (Prod.mk.inj h2).1, ← (Prod.mk.inj h2).2]
      rfl
    · rw [if_neg hr] at h
      have h2 := Option.some.inj h
      left
      rw [← (Prod.mk.inj h2).1, ← (Prod.mk.inj h2).2]
  · have h2 := Option.some.inj h
    right
    exact ⟨(Prod.mk.inj h2).1.symm, (Prod.mk.inj h2).2.symm⟩

/-- Counterexample to C13 as stated: the read delivers the three bytes `a`, NUL, `b`,
and `executeSystemCommand` returns the one byte `a`. -/
theorem executeSystemCommand_nul_truncates :
    passthroughRead demoSession nulWorld "ls".toList = some (3, ['a', nul, 'b']) ∧
    (executeSystemCommand demoSession nulWorld "ls".toList).1 = some ['a'] ∧
    (executeSystemCommand demoSession nulWorld "ls".toList).1 ≠ some ['a', nul, 'b'] := by
  refine ⟨rfl, rfl, ?_⟩
  have h : (executeSystemCommand demoSession nulWorld "ls".toList).1 = some ['a'] := rfl
  rw [h]
  decide

/-- C13, amended: when the read delivers n > 0 bytes, `executeSystemCommand` returns
the bytes before the first byte of value 0; when none of the n bytes is 0 the result
is exactly those n bytes, in the same order. -/
theorem executeSystemCommand_positive_read (t : NativeTerminalCore) (w : World)
    (command : CString) (n : Int) (data : List Char)
    (hread : passthroughRead t w command = some (n, data)) (hpos : n > 0) :
    (executeSystemCommand t w command).1 = some (data.takeWhile (fun c => c ≠ nul)) ∧
    (nul ∉ data →
      (executeSystemCommand t w command).1 = some data ∧ (data.length : Int) = n) := by
  have hres : (executeSystemCommand t w command).1 =
      some (data.takeWhile (fun c => c ≠ nul)) := by
    rw [executeSystemCommand_result, hread]
    simp only [hpos, if_true, fromCStr_terminated]
  refine ⟨hres, ?_⟩
  intro hnul
  refine ⟨?_, ?_⟩
  · rw [hres, takeWhile_ne_nul_of_not_mem data hnul]
  · rcases passthroughRead_length t w command n data hread with h | ⟨h, -⟩
    · exact h
    · rw [h] at hpos
      exact absurd hpos (by decide)

/-- Witness of C13: the example world, where the shell has `ok` ready. -/
theorem executeSystemCommand_positive_read_witness :
    passthroughRead demoSession demoWorld "ls".toList = some (2, "ok".toList) ∧
    (2 : Int) > 0 ∧
    (executeSystemCommand demoSession demoWorld "ls".toList).1 = some "ok".toList :=
  ⟨rfl, by decide,
    ((executeSystemCommand_positive_read demoSession demoWorld "ls".toList 2 "ok".toList
      rfl (by decide)).2 (by decide)).1⟩

/-- Counterexample to C15 as stated: with 4096 bytes ready, the one read asks for
4095 bytes and the returned text has 4095 bytes, not 4096. -/
theorem executeSystemCommand_reads_4095 :
    fullWorld.ready.length = 4096 ∧
    readsIssued (executeSystemCommand demoSession fullWorld "ls".toList).2.trace =
      [(3, 4095)] ∧
    (executeSystemCommand demoSession fullWorld "ls".toList).1 =
      some (List.replicate 4095 'x') ∧
    (List.replicate 4095 'x').length ≠ 4096 := by
  have hr : fullWorld.ready = List.replicate 4096 'x' := rfl
  refine ⟨?_, ?_, ?_, ?_⟩
  · rw [hr, List.length_replicate]
  · rw [executeSystemCommand_trace]
    rfl
  · rw [executeSystemCommand_result, passthroughRead_eq]
    have hs : fullWorld.side = ShellSide.alive := rfl
    have hne : List.replicate 4096 'x' ≠ [] := by
      intro h
      have h2 := congrArg List.length h
      rw [List.length_replicate] at h2
      exact absurd h2 (by decide)
    have hx : ('x' : Char) ≠ nul := by decide
    simp only [hs, hr, if_neg hne, List.take_replicate, List.length_replicate]
    have hmin : min 4095 4096 = 4095 := by decide
    rw [hmin]
    have hpos : ((4095 : Nat) : Int) > 0 := by decide
    rw [if_pos hpos, fromCStr_terminated, takeWhile_ne_nul_of_not_mem]
    intro hmem
    exact hx (List.eq_of_mem_replicate hmem).symm
  · rw [List.length_replicate]
    decide

theorem readsIssued_append (a b : List SysCall) :
    readsIssued (a ++ b) = readsIssued a ++ readsIssued b := by
  induction a with
  | nil => rfl
  | cons c a ih =>
    cases c with
    | openpty => simpa [readsIssued] using ih
    | fork => simpa [readsIssued] using ih
    | write fd1 buf => simpa [readsIssued] using ih
    | read fd1 n => simp [readsIssued, ih]

theorem length_takeWhile_le_length (p : Char → Bool) (l : List Char) :
    (l.takeWhile p).length ≤ l.length := by
  induction l with
  | nil => simp
  | cons c l ih =>
    cases hp : p c
    · rw [List.takeWhile_cons_of_neg (by simp [hp])]
      simp
    · rw [List.takeWhile_cons_of_pos hp]
      simp only [List.length_cons]
      omega

theorem passthroughRead_bound (t : NativeTerminalCore) (w : World) (command : CString)
    (n : Int) (data : List Char) (h : passthroughRead t w command = some (n, data)) :
    data.length ≤ 4095 ∧ n ≤ 4095 := by
  have htake : (w.ready.take 4095).length ≤ 4095 := by
    rw [List.length_take]
    omega
  rw [passthroughRead_eq] at h
  cases hs : w.side <;> rw [hs] at h <;> simp only [] at h
  · by_cases hr : w.ready = []
    · rw [if_pos hr] at h; exact Option.noConfusion h
    · rw [if_neg hr] at h
      have h2 := Prod.mk.inj (Option.some.inj h)
      rw [← h2.1, ← h2.2]
      exact ⟨htake, by omega⟩
  · by_cases hr : w.ready = []
    · rw [if_pos hr] at h
      have h2 := Prod.mk.inj (Option.some.inj h)
      rw [← h2.1, ← h2.2]
      exact ⟨by simp, by decide⟩
    · rw [if_neg hr] at h
      have h2 := Prod.mk.inj (Option.some.inj h)
      rw [← h2.1, ← h2.2]
      exact ⟨htake, by omega⟩
  · have h2 := Prod.mk.inj (Option.some.inj h)
    rw [← h2.1, ← h2.2]
    exact ⟨by simp, by decide⟩

/-- C15, amended: every passthrough issues exactly one read, and that read asks the
master descriptor for up to 4095 bytes (the buffer of 4096 less the terminator); the
read never delivers more than 4095 bytes and the result is never longer than 4095
bytes; when the shell has 4095 or more bytes ready the read delivers 4095 of them,
and the returned text holds these 4095 bytes when none of them is 0. -/
theorem executeSystemCommand_single_read (t : NativeTerminalCore) (w : World)
    (command : CString) :
    readsIssued (executeSystemCommand t w command).2.trace =
      readsIssued w.trace ++ [(t.master_fd, 4095)] ∧
    (∀ n data, passthroughRead t w command = some (n, data) →
      data.length ≤ 4095 ∧ n ≤ 4095) ∧
    (∀ s, (executeSystemCommand t w command).1 = some s → s.length ≤ 4095) ∧
    (4095 ≤ w.ready.length → w.side ≠ ShellSide.failed →
      passthroughRead t w command = some (4095, w.ready.take 4095) ∧
      (w.ready.take 4095).length = 4095 ∧
      (nul ∉ w.ready.take 4095 →
        (executeSystemCommand t w command).1 = some (w.ready.take 4095))) := by
  refine ⟨?_, passthroughRead_bound t w command, ?_, ?_⟩
  · rw [executeSystemCommand_trace, readsIssued_append]
    rfl
  · intro s hs
    rw [executeSystemCommand_result] at hs
    cases hp : passthroughRead t w command with
    | none =>
      rw [hp] at hs
      exact Option.noConfusion hs
    | some p =>
      obtain ⟨n, data⟩ := p
      rw [hp] at hs
      have hb := (passthroughRead_bound t w command n data hp).1
      by_cases hn : n > 0
      · simp only [hn, if_true, fromCStr_terminated] at hs
        rw [← Option.some.inj hs]
        have h1 := length_takeWhile_le_length (fun c => decide (c ≠ nul)) data
        omega
      · simp only [hn, if_false] at hs
        rw [← Option.some.inj hs]
        decide
  · intro hready hside
    have hlen : (w.ready.take 4095).length = 4095 := by
      rw [List.length_take]
      omega
    have hne : w.ready ≠ [] := by
      intro h
      rw [h] at hready
      simp at hready
    have hread : passthroughRead t w command = some (4095, w.ready.take 4095) := by
      rw [passthroughRead_eq]
      cases hs : w.side with
      | failed => exact absurd hs hside
      | closed => simp only [if_neg hne, hlen]; rfl
      | alive => simp only [if_neg hne, hlen]; rfl
    refine ⟨hread, hlen, ?_⟩
    intro hnul
    rw [executeSystemCommand_result, hread]
    have hpos : (4095 : Int) > 0 := by decide
    simp only [hpos, if_true, fromCStr_terminated]
    rw [takeWhile_ne_nul_of_not_mem _ hnul]

/-- Witness of C15: one read of 4095 in the example world, where the shell has two
bytes ready, and 4095 bytes delivered in the world with 4096 bytes `x` ready. -/
theorem executeSystemCommand_single_read_witness :
    readsIssued (executeSystemCommand demoSession demoWorld "ls".toList).2.trace =
      readsIssued demoWorld.trace ++ [(demoSession.master_fd, 4095)] ∧
    4095 ≤ fullWorld.ready.length ∧ fullWorld.side ≠ ShellSide.failed ∧
    passthroughRead demoSession fullWorld "ls".toList =
      some (4095, fullWorld.ready.take 4095) :=
  have hready : 4095 ≤ fullWorld.ready.length := by
    have hr : fullWorld.ready = List.replicate 4096 'x' := rfl
    rw [hr, List.length_replicate]
    decide
  have hside : fullWorld.side ≠ ShellSide.failed := by decide
  ⟨(executeSystemCommand_single_read demoSession demoWorld "ls".toList).1,
    hready, hside,
    ((executeSystemCommand_single_read demoSession fullWorld "ls".toList).2.2.2
      hready hside).1⟩

/-! ## Creating and destroying a session -/

theorem initializeNativePTY_no_pty (t : NativeTerminalCore) (w : World)
    (h : w.ptySupply = none) :
    initializeNativePTY t w = (false, t, { w with trace := w.trace ++ [SysCall.openpty] }) := by
  unfold initializeNativePTY sys_openpty
  simp [h]

theorem initializeNativePTY_no_fork (t : NativeTerminalCore) (w : World) (m s : Int)
    (hp : w.ptySupply = some (m, s)) (hf : w.forkSupply = none) :
    initializeNativePTY t w =
      (false,
        registerCommands { t with master_fd := m, slave_fd := s, child_pid := -1 },
        { w with trace := w.trace ++ [SysCall.openpty, SysCall.fork],
                 openFds := w.openFds ++ [m, s] }) := by
  unfold initializeNativePTY sys_openpty sys_fork
  simp [hp, hf]

theorem initializeNativePTY_success (t : NativeTerminalCore) (w : World) (m s : Int) (k : Nat)
    (hp : w.ptySupply = some (m, s)) (hf : w.forkSupply = some k) :
    initializeNativePTY t w =
      (true,
        registerCommands { t with master_fd := m, slave_fd := s, child_pid := (k : Int) + 1 },
        { w with trace := w.trace ++ [SysCall.openpty, SysCall.fork],
                 openFds := w.openFds ++ [m, s],
                 children := w.children ++ [(k : Int) + 1] }) := by
  unfold initializeNativePTY sys_openpty sys_fork
  have hk : (0 : Int) < (k : Int) + 1 := by omega
  simp [hp, hf, hk]

/-- Counterexample to C16 as stated: the pseudo-terminal is allocated and the fork
fails; `initializeNativePTY` returns false, the bridge returns the null handle, and
the descriptors 3 and 4 opened by the call are still open. -/
theorem initializeNativePTY_fork_failure_leaks :
    forkFailWorld.openFds = [0, 1, 2] ∧
    (initializeNativePTY (NativeTerminalCore.fresh 0 0 0) forkFailWorld).1 = false ∧
    (initializeNativePTY (NativeTerminalCore.fresh 0 0 0) forkFailWorld).2.2.openFds =
      [0, 1, 2, 3, 4] ∧
    (Java_com_spiralgang_ashlar_MainActivity_initializeNativeTerminal 0 0 0
      forkFailWorld).1.isNone = true ∧
    (Java_com_spiralgang_ashlar_MainActivity_initializeNativeTerminal 0 0 0
      forkFailWorld).2.openFds = [0, 1, 2, 3, 4] := by
  refine ⟨rfl, rfl, rfl, rfl, rfl⟩

/-- C16, amended: `initializeNativePTY` returns true exactly when both the allocation
of the pseudo-terminal and the fork succeed; whenever it returns false no child
process was spawned; when the allocation failed no descriptor was opened; when the
allocation succeeded and the fork failed the two descriptors opened by the call stay
open, the bridge deleting the object without closing them. -/
theorem initializeNativePTY_outcome (t : NativeTerminalCore) (w : World) :
    ((initializeNativePTY t w).1 = true ↔
      w.ptySupply.isSome = true ∧ w.forkSupply.isSome = true) ∧
    ((initializeNativePTY t w).1 = false →
      (initializeNativePTY t w).2.2.children = w.children) ∧
    (w.ptySupply = none →
      (initializeNativePTY t w).1 = false ∧
      (initializeNativePTY t w).2.2.openFds = w.openFds) ∧
    (∀ m s, w.ptySupply = some (m, s) → w.forkSupply = none →
      (initializeNativePTY t w).1 = false ∧
      (initializeNativePTY t w).2.2.openFds = w.openFds ++ [m, s]) ∧
    (∀ master slave pid,
      (initializeNativePTY (NativeTerminalCore.fresh master slave pid) w).1 = false →
      (Java_com_spiralgang_ashlar_MainActivity_initializeNativeTerminal master slave pid
          w).1 = none ∧
      (Java_com_spiralgang_ashlar_MainActivity_initializeNativeTerminal master slave pid
          w).2 = (initializeNativePTY (NativeTerminalCore.fresh master slave pid) w).2.2) := by
  refine ⟨?_, ?_, ?_, ?_, ?_⟩
  · cases hp : w.ptySupply with
    | none => rw [initializeNativePTY_no_pty t w hp]; simp
    | some ms =>
      obtain ⟨m, s⟩ := ms
      cases hf : w.forkSupply with
      | none => rw [initializeNativePTY_no_fork t w m s hp hf]; simp
      | some k => rw [initializeNativePTY_success t w m s k hp hf]; simp
  · cases hp : w.ptySupply with
    | none => rw [initializeNativePTY_no_pty t w hp]; simp
    | some ms =>
      obtain ⟨m, s⟩ := ms
      cases hf : w.forkSupply with
      | none => rw [initializeNativePTY_no_fork t w m s hp hf]; simp
      | some k => rw [initializeNativePTY_success t w m s k hp hf]; simp
  · intro hp
    rw [initializeNativePTY_no_pty t w hp]
    exact ⟨rfl, rfl⟩
  · intro m s hp hf
    rw [initializeNativePTY_no_fork t w m s hp hf]
    exact ⟨rfl, rfl⟩
  · intro master slave pid h
    unfold Java_com_spiralgang_ashlar_MainActivity_initializeNativeTerminal
    dsimp only
    split
    · rename_i t1 w1 heq
      rw [heq] at h
      exact Bool.noConfusion h
    · rename_i t1 w1 heq
      rw [heq]
      exact ⟨rfl, rfl⟩

/-- Counterexample to C17 as stated: a session is created in `bootWorld` and destroyed;
no system call follows the `openpty` and the `fork`, the descriptors 3 and 4 are still
open and the child 42 is still alive, none of which was there before the create. -/
theorem create_destroy_leaks :
    bootWorld.openFds = [0, 1, 2] ∧ bootWorld.children = [] ∧
    (Java_com_spiralgang_ashlar_MainActivity_initializeNativeTerminal 0 0 0
      bootWorld).1.isSome = true ∧
    (Java_com_spiralgang_ashlar_MainActivity_destroyNativeTerminal
      (Java_com_spiralgang_ashlar_MainActivity_initializeNativeTerminal 0 0 0 bootWorld).1
      (Java_com_spiralgang_ashlar_MainActivity_initializeNativeTerminal 0 0 0
        bootWorld).2).trace = [SysCall.openpty, SysCall.fork] ∧
    (Java_com_spiralgang_ashlar_MainActivity_destroyNativeTerminal
      (Java_com_spiralgang_ashlar_MainActivity_initializeNativeTerminal 0 0 0 bootWorld).1
      (Java_com_spiralgang_ashlar_MainActivity_initializeNativeTerminal 0 0 0
        bootWorld).2).openFds = [0, 1, 2, 3, 4] ∧
    (Java_com_spiralgang_ashlar_MainActivity_destroyNativeTerminal
      (Java_com_spiralgang_ashlar_MainActivity_initializeNativeTerminal 0 0 0 bootWorld).1
      (Java_com_spiralgang_ashlar_MainActivity_initializeNativeTerminal 0 0 0
        bootWorld).2).children = [42] := by
  refine ⟨rfl, rfl, rfl, rfl, rfl, rfl⟩

/-- C17, amended: destroying a session deletes the object and nothing else: it issues
no system call and leaves the world as it is, so after a successful create followed
by a destroy the master and the slave descriptor are open and the child shell is
alive, in addition to the descriptors and children there were before the create. -/
theorem destroy_releases_nothing (master slave pid : Int) (w w1 : World)
    (t : NativeTerminalCore)
    (hcreate : Java_com_spiralgang_ashlar_MainActivity_initializeNativeTerminal
      master slave pid w = (some t, w1)) :
    Java_com_spiralgang_ashlar_MainActivity_destroyNativeTerminal (some t) w1 = w1 ∧
    w1.trace = w.trace ++ [SysCall.openpty, SysCall.fork] ∧
    w1.openFds = w.openFds ++ [t.master_fd, t.slave_fd] ∧
    w1.children = w.children ++ [t.child_pid] ∧
    (∀ (handle : Option NativeTerminalCore) (w2 : World),
      Java_com_spiralgang_ashlar_MainActivity_destroyNativeTerminal handle w2 = w2) := by
  have hdestroy : ∀ (handle : Option NativeTerminalCore) (w2 : World),
      Java_com_spiralgang_ashlar_MainActivity_destroyNativeTerminal handle w2 = w2 := by
    intro handle w2
    cases handle <;> rfl
  refine ⟨hdestroy _ _, ?_, ?_, ?_, hdestroy⟩ <;>
  · unfold Java_com_spiralgang_ashlar_MainActivity_initializeNativeTerminal at hcreate
    dsimp only at hcreate
    cases hp : w.ptySupply with
    | none =>
      rw [initializeNativePTY_no_pty _ w hp] at hcreate
      simp at hcreate
    | some ms =>
      obtain ⟨m, s⟩ := ms
      cases hf : w.forkSupply with
      | none =>
        rw [initializeNativePTY_no_fork _ w m s hp hf] at hcreate
        simp at hcreate
      | some k =>
        rw [initializeNativePTY_success _ w m s k hp hf] at hcreate
        simp only [Prod.mk.injEq, Option.some.injEq] at hcreate
        obtain ⟨ht, hw⟩ := hcreate
        subst ht
        subst hw
        rfl

/-- Witness of C17: the session created in `bootWorld`. -/
theorem destroy_releases_nothing_witness :
    Java_com_spiralgang_ashlar_MainActivity_initializeNativeTerminal 0 0 0 bootWorld =
      (some demoSession, demoWorld) ∧
    Java_com_spiralgang_ashlar_MainActivity_destroyNativeTerminal (some demoSession)
      demoWorld = demoWorld ∧
    demoWorld.openFds = bootWorld.openFds ++ [demoSession.master_fd, demoSession.slave_fd] :=
  have h := destroy_releases_nothing 0 0 0 bootWorld demoWorld demoSession rfl
  ⟨rfl, h.1, h.2.2.1⟩

/-! ## The tokens and the characters of the line -/

theorem parity_succ (q : Bool) (seen : Nat) (hq : q = true ↔ seen % 2 = 1) :
    (!q) = true ↔ (seen + 1) % 2 = 1 := by
  cases q
  · have h : ¬ seen % 2 = 1 := fun h => Bool.noConfusion (hq.2 h)
    simp only [Bool.not_false, true_iff]
    omega
  · have h : seen % 2 = 1 := hq.1 rfl
    simp only [Bool.not_true, false_iff]
    constructor
    · intro h2; exact Bool.noConfusion h2
    · intro h2; omega

theorem not_space_or_quoted (c : Char) (q : Bool) (hs : ¬ (c = ' ' ∧ q = false)) :
    c ≠ ' ' ∨ q = true := by
  by_cases h1 : c = ' '
  · right
    cases q
    · exact absurd ⟨h1, rfl⟩ hs
    · rfl
  · left; exact h1

theorem hasQuotedSpace_hit (c : Char) (cs : List Char) (seen : Nat) (hc : ¬ isQuote c)
    (h : c = ' ' ∧ seen % 2 = 1) : hasQuotedSpace seen (c :: cs) = true := by
  simp only [hasQuotedSpace, if_neg hc, if_pos h]

/-- The tokens pushed by the loop are not empty, hold no quote character, and hold a
space only when the pending token did or the rest of the line has a quoted space. -/
theorem tokRun_tokens_wellformed (cs : List Char) (tok : CString) (q : Bool) (seen : Nat)
    (hq : q = true ↔ seen % 2 = 1) (htok : ∀ c ∈ tok, ¬ isQuote c) :
    ∀ t ∈ tokRun [] tok q cs,
      t ≠ [] ∧ (∀ c ∈ t, ¬ isQuote c) ∧
      (' ' ∈ t → ' ' ∈ tok ∨ hasQuotedSpace seen cs = true) := by
  induction cs generalizing tok q seen with
  | nil =>
    intro t ht
    rw [tokRun_nil] at ht
    by_cases hne : tok = []
    · simp [hne] at ht
    · simp only [ne_eq, hne, not_false_eq_true, if_true, List.nil_append,
        List.mem_singleton] at ht
      subst ht
      exact ⟨hne, htok, fun h => Or.inl h⟩
  | cons c cs ih =>
    intro t ht
    by_cases hc : isQuote c
    · rw [tokRun_quote _ _ _ _ _ hc] at ht
      have h := ih tok (!q) (seen + 1) (parity_succ q seen hq) htok t ht
      refine ⟨h.1, h.2.1, ?_⟩
      intro hsp
      rcases h.2.2 hsp with h1 | h1
      · exact Or.inl h1
      · right
        simpa [hasQuotedSpace, hc] using h1
    · by_cases hs : c = ' ' ∧ q = false
      · obtain ⟨rfl, rfl⟩ := hs
        have heven : ¬ seen % 2 = 1 := fun h => Bool.noConfusion (hq.2 h)
        have hrest : ∀ u ∈ tokRun [] [] false cs,
            u ≠ [] ∧ (∀ d ∈ u, ¬ isQuote d) ∧
            (' ' ∈ u → ' ' ∈ tok ∨ hasQuotedSpace seen (' ' :: cs) = true) := by
          intro u hu
          have h := ih [] false seen hq (fun d hd => absurd hd (List.not_mem_nil d)) u hu
          refine ⟨h.1, h.2.1, ?_⟩
          intro hsp
          rcases h.2.2 hsp with h1 | h1
          · exact absurd h1 (List.not_mem_nil _)
          · right
            simpa [hasQuotedSpace, hc, heven] using h1
        by_cases hne : tok = []
        · subst hne
          rw [tokRun_space_skip] at ht
          exact hrest t ht
        · rw [tokRun_space_flush _ _ _ hne, tokRun_tokens] at ht
          simp only [List.nil_append, List.singleton_append, List.mem_cons] at ht
          rcases ht with ht | ht
          · subst ht
            exact ⟨hne, htok, fun h => Or.inl h⟩
          · exact hrest t ht
      · rw [tokRun_append _ _ _ _ _ hc (not_space_or_quoted c q hs)] at ht
        have htok2 : ∀ d ∈ tok ++ [c], ¬ isQuote d := by
          intro d hd
          rcases List.mem_append.1 hd with h1 | h1
          · exact htok d h1
          · rw [List.mem_singleton.1 h1]; exact hc
        have h := ih (tok ++ [c]) q seen hq htok2 t ht
        refine ⟨h.1, h.2.1, ?_⟩
        intro hsp
        rcases h.2.2 hsp with h1 | h1
        · rcases List.mem_append.1 h1 with h2 | h2
          · exact Or.inl h2
          · right
            have hcs : c = ' ' := (List.mem_singleton.1 h2).symm
            have hqt : q = true := by
              rcases not_space_or_quoted c q hs with h3 | h3
              · exact absurd hcs h3
              · exact h3
            have hodd : seen % 2 = 1 := hq.1 hqt
            exact hasQuotedSpace_hit c cs seen hc ⟨hcs, hodd⟩
        · right
          by_cases hcs : c = ' ' ∧ seen % 2 = 1
          · exact hasQuotedSpace_hit c cs seen hc hcs
          · simp only [hasQuotedSpace, hc, hcs, if_false]
            exact h1

theorem markRegions_fst (cs : List Char) (seen : Nat) :
    (markRegions seen cs).map Prod.fst = cs := by
  induction cs generalizing seen with
  | nil => rfl
  | cons c cs ih => simp only [markRegions, List.map_cons, ih]

theorem keptInToken_space (p : Char × Bool) (hk : keptInToken p = true) (hs : p.1 = ' ') :
    p.2 = true := by
  unfold keptInToken at hk
  have h := (of_decide_eq_true hk).2
  cases hp : p.2
  · exact absurd ⟨hs, hp⟩ h
  · rfl

/-- The tokens pushed by the loop, each character paired with the flag of its own
position in the line: the marked characters pushed before, the marked pending token,
and the marked characters kept from the rest of the line, in order. -/
theorem tokRun_marked (cs : List Char) (ts : List CString) (tok : CString) (q : Bool)
    (seen : Nat) (hq : q = true ↔ seen % 2 = 1)
    (mts : List (List (Char × Bool))) (mtok : List (Char × Bool))
    (hts : mts.map (List.map Prod.fst) = ts) (htok : mtok.map Prod.fst = tok) :
    ∃ mres : List (List (Char × Bool)),
      mres.map (List.map Prod.fst) = tokRun ts tok q cs ∧
      mres.flatten = mts.flatten ++ mtok ++ (markRegions seen cs).filter keptInToken := by
  induction cs generalizing ts tok q seen mts mtok with
  | nil =>
    rw [tokRun_nil]
    by_cases hne : tok = []
    · refine ⟨mts, ?_, ?_⟩
      · simp [hne, hts]
      · have hm : mtok = [] := by
          rw [hne] at htok
          exact List.map_eq_nil_iff.1 htok
        simp [markRegions, hm]
    · refine ⟨mts ++ [mtok], ?_, ?_⟩
      · simp [hne, hts, htok]
      · simp [markRegions]
  | cons c cs ih =>
    by_cases hc : isQuote c
    · have hk : keptInToken (c, decide (seen % 2 = 1)) = false := by
        simp [keptInToken, hc]
      obtain ⟨mres, h1, h2⟩ := ih ts tok (!q) (seen + 1) (parity_succ q seen hq) mts mtok
        hts htok
      refine ⟨mres, ?_, ?_⟩
      · rw [tokRun_quote _ _ _ _ _ hc]
        exact h1
      · rw [h2]
        simp only [markRegions, if_pos hc, List.filter_cons, hk]
        rfl
    · by_cases hs : c = ' ' ∧ q = false
      · obtain ⟨rfl, rfl⟩ := hs
        have hodd : ¬ seen % 2 = 1 := fun h => Bool.noConfusion (hq.2 h)
        have hk : keptInToken (' ', decide (seen % 2 = 1)) = false := by
          simp [keptInToken, hodd]
        have hw : (markRegions seen (' ' :: cs)).filter keptInToken =
            (markRegions seen cs).filter keptInToken := by
          simp only [markRegions, if_neg hc, List.filter_cons, hk]
          rfl
        by_cases hne : tok = []
        · subst hne
          have hm : mtok = [] := List.map_eq_nil_iff.1 htok
          obtain ⟨mres, h1, h2⟩ := ih ts [] false seen hq mts [] hts rfl
          refine ⟨mres, ?_, ?_⟩
          · rw [tokRun_space_skip]
            exact h1
          · rw [h2, hw, hm]
        · obtain ⟨mres, h1, h2⟩ := ih (ts ++ [tok]) [] false seen hq (mts ++ [mtok]) []
            (by simp [hts, htok]) rfl
          refine ⟨mres, ?_, ?_⟩
          · rw [tokRun_space_flush _ _ _ hne]
            exact h1
          · rw [h2, hw]
            simp
      · have hk : keptInToken (c, decide (seen % 2 = 1)) = true := by
          unfold keptInToken
          apply decide_eq_true
          refine ⟨hc, ?_⟩
          rintro ⟨h1, h2⟩
          apply hs
          refine ⟨h1, ?_⟩
          cases q
          · rfl
          · have h3 : seen % 2 = 1 := hq.1 rfl
            simp [h3] at h2
        obtain ⟨mres, h1, h2⟩ := ih ts (tok ++ [c]) q seen hq mts
          (mtok ++ [(c, decide (seen % 2 = 1))]) hts (by simp [htok])
        refine ⟨mres, ?_, ?_⟩
        · rw [tokRun_append _ _ _ _ _ hc (not_space_or_quoted c q hs)]
          exact h1
        · rw [h2]
          simp only [markRegions, if_neg hc, List.filter_cons, hk, if_true]
          simp

/-- C18: every token returned by `tokenizeCommand` is non-empty and holds neither a
double quote nor an apostrophe; the characters of the tokens are, one for one and in
order, the characters of the line that are neither a quote character nor a space
outside a quoted region, so each space of a token is a space of the line that itself
stands inside a quoted region; the line `a "" b` gives `a`, `b`. -/
theorem tokenizeCommand_tokens_wellformed (line : CString) :
    (∀ t ∈ tokenizeCommand line, t ≠ [] ∧ dquote ∉ t ∧ squote ∉ t) ∧
    (∃ marked : List (List (Char × Bool)),
      marked.map (List.map Prod.fst) = tokenizeCommand line ∧
      marked.flatten = (markRegions 0 line).filter keptInToken ∧
      (∀ mt ∈ marked, ∀ p ∈ mt, p.1 = ' ' → p.2 = true)) ∧
    (markRegions 0 line).map Prod.fst = line ∧
    (∀ t ∈ tokenizeCommand line, ' ' ∈ t → hasQuotedSpace 0 line = true) ∧
    tokenizeCommand ("a ".toList ++ [dquote, dquote] ++ " b".toList) =
      ["a".toList, "b".toList] := by
  have hq : false = true ↔ 0 % 2 = 1 := by decide
  have hwf := tokRun_tokens_wellformed line [] false 0 hq
    (fun d hd => absurd hd (List.not_mem_nil d))
  refine ⟨?_, ?_, markRegions_fst line 0, ?_, by decide⟩
  · intro t ht
    rw [tokenizeCommand_eq_tokRun] at ht
    have h := hwf t ht
    refine ⟨h.1, ?_, ?_⟩
    · intro hd
      exact h.2.1 dquote hd (Or.inl rfl)
    · intro hs
      exact h.2.1 squote hs (Or.inr rfl)
  · obtain ⟨mres, h1, h2⟩ := tokRun_marked line [] [] false 0 hq [] [] rfl rfl
    refine ⟨mres, ?_, ?_, ?_⟩
    · rw [tokenizeCommand_eq_tokRun]
      exact h1
    · rw [h2]
      simp
    · intro mt hmt p hp hsp
      have hmem : p ∈ mres.flatten := List.mem_flatten.2 ⟨mt, hmt, hp⟩
      rw [h2] at hmem
      simp only [List.flatten_nil, List.nil_append] at hmem
      exact keptInToken_space p (List.mem_filter.1 hmem).2 hsp
  · intro t ht hsp
    rw [tokenizeCommand_eq_tokRun] at ht
    rcases (hwf t ht).2.2 hsp with h1 | h1
    · exact absurd h1 (List.not_mem_nil _)
    · exact h1

/-- Witness of C18: the token `b c` of the line `a "b c"`. -/
theorem tokenizeCommand_tokens_wellformed_witness :
    "b c".toList ∈ tokenizeCommand ("a ".toList ++ [dquote] ++ "b c".toList ++ [dquote]) ∧
    "b c".toList ≠ [] ∧
    hasQuotedSpace 0 ("a ".toList ++ [dquote] ++ "b c".toList ++ [dquote]) = true :=
  have h := tokenizeCommand_tokens_wellformed
    ("a ".toList ++ [dquote] ++ "b c".toList ++ [dquote])
  ⟨by decide, (h.1 "b c".toList (by decide)).1,
    h.2.2.2.1 "b c".toList (by decide) (by decide)⟩

/-- The characters of the tokens pushed by the loop, in order: those pushed before,
the pending token, and the rest of the line without its separators. -/
theorem tokRun_flatten (cs : List Char) (ts : List CString) (tok : CString) (q : Bool)
    (seen : Nat) (hq : q = true ↔ seen % 2 = 1) :
    (tokRun ts tok q cs).flatten = ts.flatten ++ tok ++ withoutSeparators seen cs := by
  induction cs generalizing ts tok q seen with
  | nil =>
    rw [tokRun_nil]
    by_cases hne : tok = []
    · simp [hne, withoutSeparators]
    · simp [hne, withoutSeparators]
  | cons c cs ih =>
    by_cases hc : isQuote c
    · rw [tokRun_quote _ _ _ _ _ hc, ih ts tok (!q) (seen + 1) (parity_succ q seen hq)]
      simp only [withoutSeparators, if_pos hc]
    · by_cases hs : c = ' ' ∧ q = false
      · obtain ⟨rfl, rfl⟩ := hs
        have heven : seen % 2 = 0 := by
          have h : ¬ seen % 2 = 1 := fun h => Bool.noConfusion (hq.2 h)
          omega
        have hw : withoutSeparators seen (' ' :: cs) = withoutSeparators seen cs := by
          simp [withoutSeparators, hc, heven]
        by_cases hne : tok = []
        · subst hne
          rw [tokRun_space_skip, ih ts [] false seen hq, hw]
        · rw [tokRun_space_flush _ _ _ hne, ih (ts ++ [tok]) [] false seen hq, hw]
          simp
      · have hs2 : ¬ (c = ' ' ∧ seen % 2 = 0) := by
          rintro ⟨h1, h2⟩
          apply hs
          refine ⟨h1, ?_⟩
          cases q
          · rfl
          · have h3 := hq.1 rfl
            omega
        have hw : withoutSeparators seen (c :: cs) = c :: withoutSeparators seen cs := by
          simp only [withoutSeparators, if_neg hc, if_neg hs2]
        rw [tokRun_append _ _ _ _ _ hc (not_space_or_quoted c q hs),
          ih ts (tok ++ [c]) q seen hq, hw]
        simp

/-- C19: the tokens of a line, concatenated in order, are the line with every quote
character removed and every space outside a quoted region removed; no other character
is lost or moved. -/
theorem tokenizeCommand_flatten (line : CString) :
    (tokenizeCommand line).flatten = withoutSeparators 0 line ∧
    (tokenizeCommand ("a ".toList ++ [squote, 'b', dquote] ++ " c".toList ++ [squote] ++
        " d".toList)).flatten = "abc d".toList := by
  refine ⟨?_, by decide⟩
  have hq : false = true ↔ 0 % 2 = 1 := by decide
  rw [tokenizeCommand_eq_tokRun, tokRun_flatten line [] [] false 0 hq]
  simp

theorem tokStep_inQuotes (s : TokState) (c : Char) :
    (tokStep s c).inQuotes = if isQuote c then !s.inQuotes else s.inQuotes := by
  by_cases hc : isQuote c
  · rw [tokStep_quote _ _ hc, if_pos hc]
  · rw [if_neg hc]
    obtain ⟨ts, tok, q⟩ := s
    by_cases hs : c = ' ' ∧ q = false
    · obtain ⟨rfl, rfl⟩ := hs
      by_cases hne : tok = []
      · subst hne
        rw [tokStep_space_skip]
      · rw [tokStep_space_flush _ _ hne]
    · rw [tokStep_append _ _ _ _ hc (not_space_or_quoted c q hs)]

/-- After a stretch with an even number of quote characters the flag is as before. -/
theorem foldl_tokStep_inQuotes_even (a : List Char) (s : TokState) :
    (a.foldl tokStep s).inQuotes =
      if quoteCount a % 2 = 0 then s.inQuotes else !s.inQuotes := by
  induction a generalizing s with
  | nil => simp [quoteCount]
  | cons c a ih =>
    rw [List.foldl_cons, ih, tokStep_inQuotes]
    by_cases hc : isQuote c
    · have hcount : quoteCount (c :: a) = quoteCount a + 1 := by
        simp [quoteCount, hc]
      rw [hcount, if_pos hc]
      by_cases he : quoteCount a % 2 = 0
      · have h2 : ¬ (quoteCount a + 1) % 2 = 0 := by omega
        rw [if_pos he, if_neg h2]
      · have h2 : (quoteCount a + 1) % 2 = 0 := by omega
        rw [if_neg he, if_pos h2, Bool.not_not]
    · have hcount : quoteCount (c :: a) = quoteCount a := by
        simp [quoteCount, hc]
      rw [hcount, if_neg hc]

/-- C20: for a line `a` with an even number of quote characters, the tokens of `a`,
a space and `b` are the tokens of `a` followed by the tokens of `b`; with an odd
number the equation can fail: for `a` a double quote and `x`, and `b` the letter `y`,
the line has the single token `x y`. -/
theorem tokenizeCommand_split_at_space (a b : CString) (heven : quoteCount a % 2 = 0) :
    tokenizeCommand (a ++ [' '] ++ b) = tokenizeCommand a ++ tokenizeCommand b ∧
    tokenizeCommand ([dquote, 'x'] ++ [' '] ++ ['y']) = ["x y".toList] ∧
    tokenizeCommand [dquote, 'x'] ++ tokenizeCommand ['y'] = ["x".toList, "y".toList] ∧
    quoteCount [dquote, 'x'] % 2 = 1 := by
  refine ⟨?_, by decide, by decide, by decide⟩
  have hflag : (a.foldl tokStep ⟨[], [], false⟩).inQuotes = false := by
    rw [foldl_tokStep_inQuotes_even, if_pos heven]
  have ha : tokenizeCommand a = tokFinish (a.foldl tokStep ⟨[], [], false⟩) := rfl
  rw [tokenizeCommand_eq_tokRun, List.append_assoc, tokRun_concat, hflag, ha]
  simp only [List.singleton_append]
  by_cases hne : (a.foldl tokStep ⟨[], [], false⟩).token = []
  · rw [hne, tokRun_space_skip, tokRun_tokens, tokenizeCommand_eq_tokRun]
    simp [tokFinish, hne]
  · rw [tokRun_space_flush _ _ _ hne, tokRun_tokens, tokenizeCommand_eq_tokRun]
    simp [tokFinish, hne]

/-- Witness of C20: the lines `say "a b"` and `c d`. -/
theorem tokenizeCommand_split_at_space_witness :
    quoteCount ("say ".toList ++ [dquote] ++ "a b".toList ++ [dquote]) % 2 = 0 ∧
    tokenizeCommand (("say ".toList ++ [dquote] ++ "a b".toList ++ [dquote]) ++ [' '] ++
        "c d".toList) =
      tokenizeCommand ("say ".toList ++ [dquote] ++ "a b".toList ++ [dquote]) ++
        tokenizeCommand "c d".toList :=
  ⟨by decide,
    (tokenizeCommand_split_at_space ("say ".toList ++ [dquote] ++ "a b".toList ++ [dquote])
      "c d".toList (by decide)).1⟩

end NativeTerminal
